import Mathlib

/-!
Shallow embedding of the milli CSV indexer (`src/bin/indexer.rs`) and proofs
about it.

Bytes are modelled as `Nat`, byte strings as `List Nat`.  A roaring bitmap is
modelled as a `Finset Nat`; its portable serialization is modelled as the
canonical strictly increasing list of its elements, so that serialization is
injective, deserialization of a valid serialization recovers the set, and
deserialization of an invalid byte string fails (matching the `unwrap` panic
on malformed input).  Panics (`panic!`, failed `assert!`, failed `unwrap`)
are modelled by the `MergeResult.panic` constructor carrying a message.
-/

namespace Indexer

/-- `LMDB_MAX_KEY_LENGTH` from the source. -/
def LMDB_MAX_KEY_LENGTH : Nat := 511

/-- `MAX_POSITION` from the source. -/
def MAX_POSITION : Nat := 1000

/-- `MAX_ATTRIBUTES = u32::max_value() as usize / MAX_POSITION` from the source. -/
def MAX_ATTRIBUTES : Nat := (2 ^ 32 - 1) / MAX_POSITION

/-- `HEADERS_BYTE` from the source. -/
def HEADERS_BYTE : Nat := 0

/-- `WORD_DOCID_POSITIONS_BYTE` from the source. -/
def WORD_DOCID_POSITIONS_BYTE : Nat := 1

/-- `WORD_DOCIDS_BYTE` from the source. -/
def WORD_DOCIDS_BYTE : Nat := 2

/-- `DOCUMENTS_IDS_BYTE` from the source. -/
def DOCUMENTS_IDS_BYTE : Nat := 4

/-- `WORDS_PROXIMITIES_BYTE` from the source. -/
def WORDS_PROXIMITIES_BYTE : Nat := 5

/-- `HEADERS_KEY = b"\0headers"`: the byte 0 followed by the ASCII bytes of "headers". -/
def HEADERS_KEY : List Nat := HEADERS_BYTE :: [104, 101, 97, 100, 101, 114, 115]

/-- `DOCUMENTS_IDS_KEY = b"\x04documents-ids"`: the byte 4 followed by the ASCII
bytes of "documents-ids". -/
def DOCUMENTS_IDS_KEY : List Nat :=
  DOCUMENTS_IDS_BYTE :: [100, 111, 99, 117, 109, 101, 110, 116, 115, 45, 105, 100, 115]

/-- `WORDS_FST_KEY = b"\x06words-fst"`: the byte 6 followed by the ASCII bytes
of "words-fst". -/
def WORDS_FST_KEY : List Nat := 6 :: [119, 111, 114, 100, 115, 45, 102, 115, 116]

/-- A roaring bitmap: a finite set of 32-bit integers. -/
abbrev Bitmap := Finset Nat

/-- Model of `RoaringBitmap::serialize_into`: the canonical (strictly
increasing) list of the elements of the set. -/
def serializeBitmap (b : Bitmap) : List Nat := b.sort (· ≤ ·)

/-- Boolean test that a list is strictly increasing; this characterizes the
valid serializations under the canonical serialization model. -/
def strictSorted : List Nat → Bool
  | [] => true
  | [_] => true
  | a :: b :: t => decide (a < b) && strictSorted (b :: t)

/-- Model of `RoaringBitmap::deserialize_from`: succeeds exactly on valid
serializations (strictly increasing lists) and returns the set of elements;
fails (`None`, modelling the `unwrap` panic path) otherwise. -/
def deserializeBitmap (l : List Nat) : Option Bitmap :=
  if strictSorted l then some l.toFinset else none

/-- Left fold of union over a list of bitmaps starting from the empty bitmap:
the union of all the bitmaps of the list. -/
def unionAll (bs : List Bitmap) : Bitmap := bs.foldl (· ∪ ·) ∅

/-- Result of a merge callback: either a merged value (`Ok(vec)`) or an
aborted process (Rust `panic!` / failed `assert!` / failed `unwrap`). -/
inductive MergeResult where
  | ok (v : List Nat) : MergeResult
  | panic (msg : String) : MergeResult
deriving DecidableEq

/-- Whether a merge outcome is a panic (an abort of the run). -/
def MergeResult.isPanic : MergeResult → Bool
  | .ok _ => false
  | .panic _ => true

/-- Model of `values.windows(2).all(|vs| vs[0] == vs[1])`: all adjacent value
pairs are byte-equal. -/
def allAdjacentEqual : List (List Nat) → Bool
  | [] => true
  | [_] => true
  | a :: b :: t => a == b && allAdjacentEqual (b :: t)

/-- Length-prefixed encoding of an ordered list of words, modelling the
serialized bytes of an `fst::Set` (the FST serialization itself is an external
library detail; the model only needs an injective, parseable encoding). -/
def fstEncode (ws : List (List Nat)) : List Nat :=
  ws.flatMap fun w => w.length :: w

/-- Parser for `fstEncode`, modelling `fst::Set::new` which fails on malformed
bytes. -/
def fstDecode : List Nat → Option (List (List Nat))
  | [] => some []
  | n :: rest =>
    if n ≤ rest.length then
      match fstDecode (rest.drop n) with
      | some ws => some (rest.take n :: ws)
      | none => none
    else none
termination_by l => l.length
decreasing_by
  simp only [List.length_drop, List.length_cons]
  omega

/-- Insertion of a word into a lexicographically ordered duplicate-free list
of words; used to model the ordered-set union performed by
`fst::set::OpBuilder` + `SetBuilder::extend_stream`. -/
def fstInsert (w : List Nat) : List (List Nat) → List (List Nat)
  | [] => [w]
  | x :: xs =>
    if w = x then x :: xs
    else if List.Lex (· < ·) w x then w :: x :: xs
    else x :: fstInsert w xs

/-- Ordered union of several word sets, modelling the FST union in the
`WORDS_FST_KEY` branch of `merge`. -/
def fstUnion (sets : List (List (List Nat))) : List (List Nat) :=
  (sets.flatMap id).foldl (fun acc w => fstInsert w acc) []

/-- The `WORDS_FST_KEY` branch of `merge`: deserialize every value as an FST
set (panicking on failure, as `fst::Set::new(v).unwrap()` does), union them
and re-serialize. -/
def mergeFsts (values : List (List Nat)) : MergeResult :=
  match values.mapM fstDecode with
  | some sets => .ok (fstEncode (fstUnion sets))
  | none => .panic "fst Set new unwrap failed"

/-- The bitmap branch of `merge` (`DOCUMENTS_IDS_BYTE | WORD_DOCIDS_BYTE |
WORDS_PROXIMITIES_BYTE`): split off the first value, deserialize it, union it
with the deserialization of every remaining value, and serialize the result.
An empty value list panics (`split_first().unwrap()`), and a value that is not
a valid bitmap serialization panics (`deserialize_from(..).unwrap()`). -/
def mergeBitmaps (values : List (List Nat)) : MergeResult :=
  match values with
  | [] => .panic "split_first unwrap failed"
  | head :: tail =>
    match deserializeBitmap head with
    | none => .panic "RoaringBitmap deserialize_from unwrap failed"
    | some h =>
      match tail.foldl
        (fun acc v => acc.bind fun s => (deserializeBitmap v).map fun b => s ∪ b)
        (some h) with
      | none => .panic "RoaringBitmap deserialize_from unwrap failed"
      | some u => .ok (serializeBitmap u)

/-- The value-type-aware merge callback `merge` of the source: dispatches on
the whole key for `WORDS_FST_KEY` and on the first key byte otherwise.  An
empty key panics (`key[0]` out of bounds), as does an unknown leading byte
(`panic!("wut {:?}", otherwise)`). -/
def merge (key : List Nat) (values : List (List Nat)) : MergeResult :=
  if key = WORDS_FST_KEY then
    mergeFsts values
  else
    match key.head? with
    | none => .panic "index out of bounds"
    | some b =>
      if b = HEADERS_BYTE ∨ b = WORD_DOCID_POSITIONS_BYTE then
        if allAdjacentEqual values then
          match values with
          | [] => .panic "index out of bounds"
          | v :: _ => .ok v
        else .panic "assertion failed"
      else if b = DOCUMENTS_IDS_BYTE ∨ b = WORD_DOCIDS_BYTE ∨ b = WORDS_PROXIMITIES_BYTE then
        mergeBitmaps values
      else .panic "wut"

/-- Big-endian decoding of four bytes into a 32-bit integer, modelling
`u32::from_be_bytes`. -/
def beDecode32 (a b c d : Nat) : Nat := ((a * 256 + b) * 256 + c) * 256 + d

/-- The `docs_merge` callback of the source: it unconditionally panics.  A
4-byte key is decoded as a big-endian document id and reported in the panic
message; any other key length makes the `key.try_into().unwrap()` itself
panic. -/
def docs_merge (key : List Nat) (values : List (List Nat)) : MergeResult :=
  match key with
  | [a, b, c, d] =>
    .panic ("documents must not conflict (" ++ toString (beDecode32 a b c d) ++
      " with " ++ toString values.length ++ " values)!")
  | _ => .panic "try_into unwrap failed"

/-- The merge callback that `merge_into_lmdb` installs on its k-way `Merger`:
it is the generic `merge` function, for the postings stores and for the
documents stores alike (`Merger::builder(merge)`). -/
def mergeIntoLmdbCallback : List Nat → List (List Nat) → MergeResult := merge

/-! The record loop of `Store::index_csv`: a running `document_id` counter is
incremented for every record of the input stream, and a record is processed by
this worker exactly when `document_id % num_threads == thread_index`.  The
processed record is indexed under `DocumentId::try_from(document_id)`, which
fails when the counter exceeds `u32::MAX`. -/

/-- Model of `DocumentId::try_from(document_id)` for `DocumentId = u32`. -/
def documentIdTryFrom (n : Nat) : Option Nat := if n < 2 ^ 32 then some n else none

/-- The `while rdr.read_record` loop of `Store::index_csv`, restricted to the
sharding decision: starting from counter `document_id`, it returns the
`(document_id, record)` pairs this worker indexes, in stream order. -/
def indexLoop {α : Type} (document_id thread_index num_threads : Nat) :
    List α → List (Nat × α)
  | [] => []
  | r :: rs =>
    if document_id % num_threads = thread_index then
      (document_id, r) :: indexLoop (document_id + 1) thread_index num_threads rs
    else
      indexLoop (document_id + 1) thread_index num_threads rs

/-- `Store::index_csv` sharding: the loop started with `document_id = 0`. -/
def index_csv {α : Type} (records : List α) (thread_index num_threads : Nat) :
    List (Nat × α) :=
  indexLoop 0 thread_index num_threads records

/-! The per-record position computation, the proximity computation and the
`Store::write_*` emission functions. -/

/-- `lmdb_key_valid_size` from the source: a key is insertable when it is
non-empty and at most `LMDB_MAX_KEY_LENGTH` bytes long. -/
def lmdb_key_valid_size (key : List Nat) : Bool :=
  !key.isEmpty && decide (key.length ≤ LMDB_MAX_KEY_LENGTH)

/-- Capped enumeration, modelling Rust `iter.enumerate().take(limit)` with the
running index starting at `i`. -/
def enumTake {α : Type} (limit : Nat) : Nat → List α → List (Nat × α)
  | _, [] => []
  | i, x :: xs => if i < limit then (i, x) :: enumTake limit (i + 1) xs else []

/-- The per-token position `(attr * MAX_POSITION + pos) as u32` computed in
the attribute loop of `Store::index_csv`; the `u32` cast is modelled by
reduction modulo `2^32`. -/
def positionOfToken (attr pos : Nat) : Nat := (attr * MAX_POSITION + pos) % 2 ^ 32

/-- The `(word, position)` insertions into `word_positions` produced by one
record in `Store::index_csv`: attributes are capped at `MAX_ATTRIBUTES` and
token indexes within an attribute at `MAX_POSITION`.  The record is given as
its per-attribute token lists (tokenizer and lowercasing are external). -/
def recordPositions {W : Type} (document : List (List W)) : List (W × Nat) :=
  ((enumTake MAX_ATTRIBUTES 0 document).map fun ac =>
    (enumTake MAX_POSITION 0 ac.2).map fun pt => (pt.2, positionOfToken ac.1 pt.1)).flatten

/-- `positions.iter().collect()`: roaring bitmap iteration is in increasing
order, modelled by the sorted element list. -/
def positionsList (b : Bitmap) : List Nat := b.sort (· ≤ ·)

/-- The inner double loop of `compute_words_pair_proximities`: every distance
`positions_proximity(p1, p2)` over the cartesian product of the two position
lists is inserted when `prox > 0 && prox < 8`.  The proximity metric itself
lives in the external `milli::proximity` module, so it is a parameter. -/
def pairDistances (prox : Nat → Nat → Nat) (ps1 ps2 : Bitmap) : Bitmap :=
  (List.product (positionsList ps1) (positionsList ps2)).foldl
    (fun distances pq =>
      if 0 < prox pq.1 pq.2 ∧ prox pq.1 pq.2 < 8 then insert (prox pq.1 pq.2) distances
      else distances) ∅

/-- `entry((w1, w2)).or_insert_with(RoaringBitmap::new).union_with(&distances)`
on the association list accumulating the per-record pair map. -/
def insertPair {κ : Type} [DecidableEq κ] (k : κ) (d : Bitmap) :
    List (κ × Bitmap) → List (κ × Bitmap)
  | [] => [(k, d)]
  | (k2, d2) :: rest =>
    if k = k2 then (k2, d2 ∪ d) :: rest else (k2, d2) :: insertPair k d rest

/-- `compute_words_pair_proximities`: for every ordered pair of words of the
record (`keys().cartesian_product(keys())`), compute the distances set and
record the pair exactly when that set is non-empty. -/
def compute_words_pair_proximities (prox : Nat → Nat → Nat)
    (word_positions : List (List Nat × Bitmap)) :
    List ((List Nat × List Nat) × Bitmap) :=
  (List.product word_positions word_positions).foldl
    (fun acc ww =>
      if pairDistances prox ww.1.2 ww.2.2 = ∅ then acc
      else insertPair (ww.1.1, ww.2.1) (pairDistances prox ww.1.2 ww.2.2) acc) []

/-- `u8::try_from`, whose `unwrap` panics for values at least 256. -/
def u8TryFrom (n : Nat) : Option Nat := if n < 256 then some n else none

/-- One iteration of the `for prox in proximities` loop of
`Store::write_words_proximities`: build the key
`0x05 ‖ w1 ‖ 0x00 ‖ w2 ‖ prox` and the serialized singleton bitmap of the
current document id; the insertion is skipped when the key exceeds the LMDB
key-size bound.  `none` models the `u8::try_from(prox).unwrap()` panic. -/
def proximityEntry (w1 w2 : List Nat) (document_id p : Nat) :
    Option (List (List Nat × List Nat)) :=
  match u8TryFrom p with
  | none => none
  | some byte =>
    if lmdb_key_valid_size (WORDS_PROXIMITIES_BYTE :: (w1 ++ 0 :: w2 ++ [byte])) then
      some [(WORDS_PROXIMITIES_BYTE :: (w1 ++ 0 :: w2 ++ [byte]),
        serializeBitmap {document_id})]
    else some []

/-- Sequential collection of optional entry lists, modelling a loop whose body
may panic (`none`) and otherwise appends its emitted entries in order. -/
def collectEntries {α β : Type} (f : α → Option (List β)) : List α → Option (List β)
  | [] => some []
  | a :: l =>
    match f a with
    | none => none
    | some bs =>
      match collectEntries f l with
      | none => none
      | some rest => some (bs ++ rest)

/-- `Store::write_words_proximities`: for every `((w1, w2), proximities)` pair
and every `prox` of the set, emit the prefixed key with trailing proximity
byte, skipping oversized keys. -/
def write_words_proximities (document_id : Nat)
    (words_pair_proximities : List ((List Nat × List Nat) × Bitmap)) :
    Option (List (List Nat × List Nat)) :=
  collectEntries
    (fun wwd => collectEntries (proximityEntry wwd.1.1 wwd.1.2 document_id)
      (positionsList wwd.2))
    words_pair_proximities

/-- Big-endian bytes of a `u32`, modelling `u32::to_be_bytes`. -/
def beBytes32 (n : Nat) : List Nat :=
  [n / 2 ^ 24 % 256, n / 2 ^ 16 % 256, n / 2 ^ 8 % 256, n % 256]

/-- `Store::write_docid_word_positions`: keys are `0x01 ‖ doc_id(BE32) ‖ word`,
values the serialized positions bitmap (the external
`ByteorderXRoaringBitmapCodec` is modelled by the canonical bitmap
serialization); oversized keys are silently skipped. -/
def write_docid_word_positions (id : Nat)
    (words_positions : List (List Nat × Bitmap)) : List (List Nat × List Nat) :=
  words_positions.filterMap fun wp =>
    if lmdb_key_valid_size (WORD_DOCID_POSITIONS_BYTE :: (beBytes32 id ++ wp.1)) then
      some (WORD_DOCID_POSITIONS_BYTE :: (beBytes32 id ++ wp.1), serializeBitmap wp.2)
    else none

/-- `Store::write_word_docids`: keys are `0x02 ‖ word`, values the serialized
doc-ids bitmap; oversized keys are silently skipped. -/
def write_word_docids (iter : List (List Nat × Bitmap)) : List (List Nat × List Nat) :=
  iter.filterMap fun wi =>
    if lmdb_key_valid_size (WORD_DOCIDS_BYTE :: wi.1) then
      some (WORD_DOCIDS_BYTE :: wi.1, serializeBitmap wi.2)
    else none

/-- `Store::write_headers`: a single insertion of `HEADERS_KEY` with the
encoded headers record. -/
def write_headers (headers : List Nat) : List (List Nat × List Nat) :=
  [(HEADERS_KEY, headers)]

/-- `Store::write_documents_ids`: a single insertion of `DOCUMENTS_IDS_KEY`
with the serialized documents-ids bitmap. -/
def write_documents_ids (ids : Bitmap) : List (List Nat × List Nat) :=
  [(DOCUMENTS_IDS_KEY, serializeBitmap ids)]

/-- The words FST built by the stream loop of `Store::finish`: the word body
of every key of the sorted postings stream whose first byte is
`WORD_DOCIDS_BYTE` (`key.split_first() == Some((&WORD_DOCIDS_BYTE, word))`). -/
def wordsFst (stream : List (List Nat × List Nat)) : List (List Nat) :=
  stream.filterMap fun kv =>
    match kv.1 with
    | [] => none
    | b :: word => if b = WORD_DOCIDS_BYTE then some word else none

/-! The builder configuration performed by `Store::new`. -/

/-- The chunk compression algorithms accepted by the indexer
(`compression_type_from_str`). -/
inductive CompressionType where
  | snappy
  | zlib
  | lz4
  | lz4hc
  | zstd
deriving DecidableEq

/-- The configurable state of an `oxidized_mtbl` sorter builder, as far as
`Store::new` touches it. -/
structure SorterBuilder where
  chunkCompressionType : CompressionType
  chunkCompressionLevel : Option Nat
  maxNbChunks : Option Nat
  maxMemory : Option Nat
deriving DecidableEq

/-- A fresh builder, before `Store::new` configures it (the external library's
defaults; `Store::new` always overwrites the compression type). -/
def sorterBuilderInit : SorterBuilder := ⟨CompressionType.snappy, none, none, none⟩

/-- `builder.chunk_compression_type(t)`. -/
def SorterBuilder.setCompressionType (b : SorterBuilder) (t : CompressionType) :
    SorterBuilder :=
  ⟨t, b.chunkCompressionLevel, b.maxNbChunks, b.maxMemory⟩

/-- `builder.chunk_compression_level(level)`. -/
def SorterBuilder.setCompressionLevel (b : SorterBuilder) (level : Nat) : SorterBuilder :=
  ⟨b.chunkCompressionType, some level, b.maxNbChunks, b.maxMemory⟩

/-- `builder.max_nb_chunks(nb_chunks)`. -/
def SorterBuilder.setMaxNbChunks (b : SorterBuilder) (nb_chunks : Nat) : SorterBuilder :=
  ⟨b.chunkCompressionType, b.chunkCompressionLevel, some nb_chunks, b.maxMemory⟩

/-- `builder.max_memory(memory)`. -/
def SorterBuilder.setMaxMemory (b : SorterBuilder) (memory : Nat) : SorterBuilder :=
  ⟨b.chunkCompressionType, b.chunkCompressionLevel, b.maxNbChunks, some memory⟩

/-- The builder configuration sequence of `Store::new`, in source order:
`builder` is the postings sorter's builder and `documents_builder` the
documents sorter's builder.  The second `chunk_compression_level` block
mirrors the source exactly: after `documents_builder.chunk_compression_type`,
the `if let Some(level)` body calls `builder.chunk_compression_level(level)`
on the postings builder again, not on `documents_builder`. -/
def storeNewBuilders (max_nb_chunks max_memory : Option Nat)
    (chunk_compression_type : CompressionType) (chunk_compression_level : Option Nat) :
    SorterBuilder × SorterBuilder :=
  let builder := sorterBuilderInit.setCompressionType chunk_compression_type
  let builder := match chunk_compression_level with
    | some level => builder.setCompressionLevel level
    | none => builder
  let builder := match max_nb_chunks with
    | some nb_chunks => builder.setMaxNbChunks nb_chunks
    | none => builder
  let builder := match max_memory with
    | some memory => builder.setMaxMemory memory
    | none => builder
  let documents_builder := sorterBuilderInit.setCompressionType chunk_compression_type
  let builder := match chunk_compression_level with
    | some level => builder.setCompressionLevel level
    | none => builder
  (builder, documents_builder)

/-! Lexicographic key order and the FST sentinel key. -/

/-- Byte-wise lexicographic strict order on keys (memcmp order, a proper
prefix sorting before its extensions), as used by the MTBL writer. -/
def lexLt (a b : List Nat) : Prop := List.Lex (· < ·) a b

/-- Reflexive closure of `lexLt`: the order in which a sorted MTBL stream is
emitted. -/
def lexLe (a b : List Nat) : Prop := lexLt a b ∨ a = b

/-! Helper lemmas about the bitmap serialization model and `merge`. -/

lemma strictSorted_of_sorted : ∀ {l : List Nat}, List.Sorted (· < ·) l → strictSorted l = true
  | [], _ => rfl
  | [_], _ => rfl
  | a :: b :: t, h => by
    rw [List.sorted_cons] at h
    obtain ⟨h1, h2⟩ := h
    have hab : a < b := h1 b (by simp)
    have ht := strictSorted_of_sorted h2
    simp [strictSorted, hab, ht]

lemma deserialize_serializeBitmap (s : Bitmap) :
    deserializeBitmap (serializeBitmap s) = some s := by
  unfold deserializeBitmap serializeBitmap
  rw [strictSorted_of_sorted (Finset.sort_sorted_lt s)]
  simp [Finset.sort_toFinset]

lemma foldl_option_union (tl : List Bitmap) : ∀ s : Bitmap,
    (tl.map serializeBitmap).foldl
      (fun acc v => acc.bind fun s2 => (deserializeBitmap v).map fun b2 => s2 ∪ b2) (some s)
      = some (tl.foldl (· ∪ ·) s) := by
  induction tl with
  | nil => intro s; rfl
  | cons b tl ih =>
    intro s
    simp only [List.map_cons, List.foldl_cons]
    have hstep :
        ((some s).bind fun s2 => (deserializeBitmap (serializeBitmap b)).map fun b2 => s2 ∪ b2)
          = some (s ∪ b) := by
      simp [deserialize_serializeBitmap]
    rw [hstep, ih]

lemma unionAll_cons (b : Bitmap) (tl : List Bitmap) :
    unionAll (b :: tl) = tl.foldl (· ∪ ·) b := by
  simp [unionAll]

lemma mergeBitmaps_map_serialize (bs : List Bitmap) (h : bs ≠ []) :
    mergeBitmaps (bs.map serializeBitmap) = MergeResult.ok (serializeBitmap (unionAll bs)) := by
  cases bs with
  | nil => exact absurd rfl h
  | cons b tl =>
    have h1 := deserialize_serializeBitmap b
    have h2 := foldl_option_union tl b
    simp only [List.map_cons, mergeBitmaps, h1, h2, unionAll_cons]

lemma mem_foldl_union (l : List Bitmap) : ∀ (s : Bitmap) (x : Nat),
    x ∈ l.foldl (· ∪ ·) s ↔ x ∈ s ∨ ∃ t ∈ l, x ∈ t := by
  induction l with
  | nil => simp
  | cons b tl ih =>
    intro s x
    simp only [List.foldl_cons, ih, Finset.mem_union, List.mem_cons]
    constructor
    · rintro (⟨hx | hx⟩ | ⟨t, ht, hx⟩)
      · exact Or.inl hx
      · exact Or.inr ⟨b, Or.inl rfl, hx⟩
      · exact Or.inr ⟨t, Or.inr ht, hx⟩
    · rintro (hx | ⟨t, rfl | ht, hx⟩)
      · exact Or.inl (Or.inl hx)
      · exact Or.inl (Or.inr hx)
      · exact Or.inr ⟨t, ht, hx⟩

lemma mem_unionAll (bs : List Bitmap) (x : Nat) :
    x ∈ unionAll bs ↔ ∃ t ∈ bs, x ∈ t := by
  simp [unionAll, mem_foldl_union]

lemma unionAll_congr_perm (bs bs2 : List Bitmap) (h : bs2.Perm bs) :
    unionAll bs2 = unionAll bs := by
  ext x
  rw [mem_unionAll, mem_unionAll]
  constructor
  · rintro ⟨t, ht, hx⟩; exact ⟨t, h.mem_iff.mp ht, hx⟩
  · rintro ⟨t, ht, hx⟩; exact ⟨t, h.mem_iff.mpr ht, hx⟩

lemma unionAll_map_unionAll (gs : List (List Bitmap)) :
    unionAll (gs.map unionAll) = unionAll gs.flatten := by
  ext x
  rw [mem_unionAll, mem_unionAll]
  constructor
  · rintro ⟨t, ht, hx⟩
    obtain ⟨g, hg, rfl⟩ := List.mem_map.mp ht
    obtain ⟨t2, ht2, hx2⟩ := (mem_unionAll g x).mp hx
    exact ⟨t2, List.mem_flatten.mpr ⟨g, hg, ht2⟩, hx2⟩
  · rintro ⟨t, ht, hx⟩
    obtain ⟨g, hg, htg⟩ := List.mem_flatten.mp ht
    exact ⟨unionAll g, List.mem_map_of_mem unionAll hg, (mem_unionAll g x).mpr ⟨t, htg, hx⟩⟩

lemma merge_cons_bitmapByte (b : Nat) (tl : List Nat) (values : List (List Nat))
    (hb : b = DOCUMENTS_IDS_BYTE ∨ b = WORD_DOCIDS_BYTE ∨ b = WORDS_PROXIMITIES_BYTE) :
    merge (b :: tl) values = mergeBitmaps values := by
  have hne : (b :: tl) ≠ WORDS_FST_KEY := by
    intro hcontra
    rw [WORDS_FST_KEY] at hcontra
    injection hcontra with hhead _
    rcases hb with h | h | h <;> rw [h] at hhead <;> simp_all [DOCUMENTS_IDS_BYTE,
      WORD_DOCIDS_BYTE, WORDS_PROXIMITIES_BYTE]
  have h01 : ¬(b = HEADERS_BYTE ∨ b = WORD_DOCID_POSITIONS_BYTE) := by
    rcases hb with h | h | h <;> rw [h] <;> simp [HEADERS_BYTE, WORD_DOCID_POSITIONS_BYTE,
      DOCUMENTS_IDS_BYTE, WORD_DOCIDS_BYTE, WORDS_PROXIMITIES_BYTE]
  unfold merge
  rw [if_neg hne]
  simp only [List.head?_cons]
  rw [if_neg h01, if_pos hb]

lemma merge_cons_equalByte (b : Nat) (tl : List Nat) (values : List (List Nat))
    (hb : b = HEADERS_BYTE ∨ b = WORD_DOCID_POSITIONS_BYTE) :
    merge (b :: tl) values =
      (if allAdjacentEqual values then
        match values with
        | [] => MergeResult.panic "index out of bounds"
        | v :: _ => MergeResult.ok v
      else MergeResult.panic "assertion failed") := by
  have hne : (b :: tl) ≠ WORDS_FST_KEY := by
    intro hcontra
    rw [WORDS_FST_KEY] at hcontra
    injection hcontra with hhead _
    rcases hb with h | h <;> rw [h] at hhead <;> simp_all [HEADERS_BYTE,
      WORD_DOCID_POSITIONS_BYTE]
  unfold merge
  rw [if_neg hne]
  simp only [List.head?_cons]
  rw [if_pos hb]

lemma allAdjacentEqual_eq_true_iff : ∀ {l : List (List Nat)},
    allAdjacentEqual l = true ↔ ∀ a ∈ l, ∀ b ∈ l, a = b
  | [] => by simp [allAdjacentEqual]
  | [a] => by simp [allAdjacentEqual]
  | a :: b :: t => by
    have ih := @allAdjacentEqual_eq_true_iff (b :: t)
    simp only [allAdjacentEqual, Bool.and_eq_true, beq_iff_eq, ih]
    constructor
    · rintro ⟨rfl, hall⟩
      intro x hx y hy
      rcases List.mem_cons.mp hx with rfl | hx
      · rcases List.mem_cons.mp hy with rfl | hy
        · rfl
        · exact hall x (List.mem_cons_self _ _) y hy
      · rcases List.mem_cons.mp hy with rfl | hy
        · exact (hall y (List.mem_cons_self _ _) x hx).symm
        · exact hall x hx y hy
    · intro hall
      refine ⟨hall a (by simp) b (by simp), fun x hx y hy => ?_⟩
      exact hall x (List.mem_cons_of_mem a hx) y (List.mem_cons_of_mem a hy)

/-! Theorems for the claims about the merge callback. -/

/-- C1: for every key whose first byte is `DOCUMENTS_IDS_BYTE` (0x04),
`WORD_DOCIDS_BYTE` (0x02) or `WORDS_PROXIMITIES_BYTE` (0x05), `merge` applied
to any non-empty list of serialized bitmaps returns the serialization of the
union of the deserialized bitmaps; the result is invariant under permutation
of the value list and under regrouping (first merging arbitrary non-empty
groups, then merging the group results). -/
theorem merge_bitmap_union_comm_assoc (b : Nat) (tl : List Nat) (bs : List Bitmap)
    (hb : b = DOCUMENTS_IDS_BYTE ∨ b = WORD_DOCIDS_BYTE ∨ b = WORDS_PROXIMITIES_BYTE)
    (hbs : bs ≠ []) :
    merge (b :: tl) (bs.map serializeBitmap) = MergeResult.ok (serializeBitmap (unionAll bs)) ∧
    (∀ bs2 : List Bitmap, bs2.Perm bs →
      merge (b :: tl) (bs2.map serializeBitmap) =
        MergeResult.ok (serializeBitmap (unionAll bs))) ∧
    (∀ gs : List (List Bitmap), (∀ g ∈ gs, g ≠ []) → gs.flatten = bs →
      merge (b :: tl) (gs.map fun g => serializeBitmap (unionAll g)) =
        MergeResult.ok (serializeBitmap (unionAll bs))) := by
  refine ⟨?_, ?_, ?_⟩
  · rw [merge_cons_bitmapByte b tl _ hb, mergeBitmaps_map_serialize bs hbs]
  · intro bs2 hperm
    have hbs2 : bs2 ≠ [] := by
      intro hcontra
      rw [hcontra] at hperm
      exact hbs (hperm.symm.eq_nil)
    rw [merge_cons_bitmapByte b tl _ hb, mergeBitmaps_map_serialize bs2 hbs2,
      unionAll_congr_perm bs bs2 hperm]
  · intro gs hgroups hjoin
    have hgs : gs ≠ [] := by
      intro hcontra
      rw [hcontra] at hjoin
      exact hbs hjoin.symm
    have hmapne : gs.map unionAll ≠ [] := by
      intro hcontra
      exact hgs (List.map_eq_nil_iff.mp hcontra)
    have hmm : (gs.map fun g => serializeBitmap (unionAll g))
        = (gs.map unionAll).map serializeBitmap := by
      rw [List.map_map]; rfl
    rw [hmm, merge_cons_bitmapByte b tl _ hb, mergeBitmaps_map_serialize _ hmapne,
      unionAll_map_unionAll, hjoin]

/-- Witness for C1 at a concrete instance: a word-docids key with two
singleton bitmaps merges to the serialized union. -/
theorem merge_bitmap_union_comm_assoc_witness :
    merge [2] ([{0}, {1}].map serializeBitmap) =
      MergeResult.ok (serializeBitmap (unionAll [{0}, {1}])) :=
  (merge_bitmap_union_comm_assoc 2 [] [{0}, {1}] (Or.inr (Or.inl rfl))
    (List.cons_ne_nil _ _)).1

/-- C2: for every key whose first byte is `HEADERS_BYTE` (0x00) or
`WORD_DOCID_POSITIONS_BYTE` (0x01), `merge` applied to a non-empty value list
whose values are all byte-equal returns the first value, and it aborts
(assertion failure) whenever two values of the list differ. -/
theorem merge_equal_values_or_abort (b : Nat) (tl : List Nat) (values : List (List Nat))
    (hb : b = HEADERS_BYTE ∨ b = WORD_DOCID_POSITIONS_BYTE) :
    (∀ v rest, values = v :: rest → (∀ w ∈ values, w = v) →
      merge (b :: tl) values = MergeResult.ok v) ∧
    (∀ v1 ∈ values, ∀ v2 ∈ values, v1 ≠ v2 →
      (merge (b :: tl) values).isPanic = true) := by
  constructor
  · rintro v rest rfl hall
    have heq : allAdjacentEqual (v :: rest) = true := by
      rw [allAdjacentEqual_eq_true_iff]
      intro a ha c hc
      rw [hall a ha, hall c hc]
    rw [merge_cons_equalByte b tl _ hb, if_pos heq]
  · intro v1 h1 v2 h2 hne
    have heq : allAdjacentEqual values = false := by
      rcases hfalse : allAdjacentEqual values with _ | _
      · rfl
      · exact absurd (allAdjacentEqual_eq_true_iff.mp hfalse v1 h1 v2 h2) hne
    rw [merge_cons_equalByte b tl _ hb, if_neg (by rw [heq]; exact Bool.false_ne_true)]
    rfl

/-- Witness for C2 at concrete instances: equal header values merge to the
first value; differing values abort. -/
theorem merge_equal_values_or_abort_witness :
    merge [0] [[7], [7]] = MergeResult.ok [7] ∧
    (merge [0] [[7], [8]]).isPanic = true := by
  constructor
  · exact (merge_equal_values_or_abort 0 [] [[7], [7]] (Or.inl rfl)).1 [7] [[7]] rfl (by decide)
  · exact (merge_equal_values_or_abort 0 [] [[7], [8]] (Or.inl rfl)).2 [7] (by decide) [8]
      (by decide) (by decide)

/-- C3 counterexample: the global merge of the worker documents SSTables uses
the generic `merge` callback (`Merger::builder(merge)` in `merge_into_lmdb`),
not `docs_merge`; on a document-id key (big-endian 5) carrying two byte-equal
values it returns the first value instead of aborting. -/
theorem documents_global_merge_returns_value :
    mergeIntoLmdbCallback [0, 0, 0, 5] [[1, 2], [1, 2]] = MergeResult.ok [1, 2] ∧
    (mergeIntoLmdbCallback [0, 0, 0, 5] [[1, 2], [1, 2]]).isPanic = false := by
  constructor
  · rfl
  · rfl

/-- C3 amended: the per-worker documents sorter's callback `docs_merge` aborts
on every collision, reporting the big-endian-decoded offending document id and
the number of conflicting values; the global merge of the worker documents
SSTables instead uses the generic `merge` callback, which on a document-id key
with byte-equal duplicate values returns the value without aborting. -/
theorem docs_merge_aborts_with_id (a b c d : Nat) (values : List (List Nat)) :
    docs_merge [a, b, c, d] values =
      MergeResult.panic ("documents must not conflict (" ++ toString (beDecode32 a b c d) ++
        " with " ++ toString values.length ++ " values)!") ∧
    (docs_merge [a, b, c, d] values).isPanic = true ∧
    mergeIntoLmdbCallback [0, 0, 0, 5] [[1, 2], [1, 2]] = MergeResult.ok [1, 2] :=
  ⟨rfl, rfl, rfl⟩

lemma mem_indexLoop {α : Type} : ∀ (rs : List α) (d t N i : Nat) (r : α),
    ((i, r) ∈ indexLoop d t N rs ↔ (d ≤ i ∧ rs.get? (i - d) = some r ∧ i % N = t))
  | [], d, t, N, i, r => by simp [indexLoop]
  | a :: rs, d, t, N, i, r => by
    have ih := mem_indexLoop rs (d + 1) t N i r
    unfold indexLoop
    by_cases h : d % N = t
    · rw [if_pos h]
      simp only [List.mem_cons, Prod.mk.injEq, ih]
      constructor
      · rintro (⟨rfl, rfl⟩ | ⟨hd, hget, hmod⟩)
        · exact ⟨le_refl _, by simp, h⟩
        · refine ⟨by omega, ?_, hmod⟩
          have hi : i - d = (i - (d + 1)) + 1 := by omega
          rw [hi]
          simpa using hget
      · rintro ⟨hd, hget, hmod⟩
        rcases Nat.eq_or_lt_of_le hd with rfl | hlt
        · left
          simp only [Nat.sub_self, List.get?_cons_zero, Option.some.injEq] at hget
          exact ⟨rfl, hget.symm⟩
        · right
          refine ⟨by omega, ?_, hmod⟩
          have hi : i - d = (i - (d + 1)) + 1 := by omega
          rw [hi] at hget
          simpa using hget
    · rw [if_neg h]
      rw [ih]
      constructor
      · rintro ⟨hd, hget, hmod⟩
        refine ⟨by omega, ?_, hmod⟩
        have hi : i - d = (i - (d + 1)) + 1 := by omega
        rw [hi]
        simpa using hget
      · rintro ⟨hd, hget, hmod⟩
        by_cases hi : i = d
        · subst hi
          exact absurd hmod h
        · refine ⟨by omega, ?_, hmod⟩
          have hi2 : i - d = (i - (d + 1)) + 1 := by omega
          rw [hi2] at hget
          simpa using hget

lemma indexLoop_fst_ge {α : Type} : ∀ (rs : List α) (d t N : Nat),
    ∀ p ∈ indexLoop d t N rs, d ≤ p.1
  | [], _, _, _ => by simp [indexLoop]
  | a :: rs, d, t, N => by
    intro p hp
    unfold indexLoop at hp
    by_cases h : d % N = t
    · rw [if_pos h] at hp
      rcases List.mem_cons.mp hp with rfl | hp
      · exact le_refl d
      · exact Nat.le_of_succ_le (indexLoop_fst_ge rs (d + 1) t N p hp)
    · rw [if_neg h] at hp
      exact Nat.le_of_succ_le (indexLoop_fst_ge rs (d + 1) t N p hp)

lemma indexLoop_pairwise_lt {α : Type} : ∀ (rs : List α) (d t N : Nat),
    List.Pairwise (fun p q : Nat × α => p.1 < q.1) (indexLoop d t N rs)
  | [], _, _, _ => by simp [indexLoop]
  | a :: rs, d, t, N => by
    unfold indexLoop
    by_cases h : d % N = t
    · rw [if_pos h]
      refine List.Pairwise.cons ?_ (indexLoop_pairwise_lt rs (d + 1) t N)
      intro q hq
      exact Nat.lt_of_succ_le (indexLoop_fst_ge rs (d + 1) t N q hq)
    · rw [if_neg h]
      exact indexLoop_pairwise_lt rs (d + 1) t N

/-- C4: for every input stream and worker count `N ≥ 1`, the record with
0-based index `i` is indexed exactly by the worker `i % N` (a valid worker
index), with document id `i` (whose `u32` conversion succeeds for streams of
at most `2^32` records); no other worker indexes it, and the document ids
processed by a single worker are strictly increasing. -/
theorem index_csv_round_robin {α : Type} (records : List α) (N t i : Nat)
    (hN : 1 ≤ N) (hlen : records.length ≤ 2 ^ 32) :
    (∀ r : α, ((i, r) ∈ index_csv records t N ↔ (records.get? i = some r ∧ t = i % N))) ∧
    (∀ r : α, (i, r) ∈ index_csv records t N → documentIdTryFrom i = some i) ∧
    i % N < N ∧
    (∀ t2, t2 ≠ i % N → ∀ r : α, (i, r) ∉ index_csv records t2 N) ∧
    List.Pairwise (fun p q : Nat × α => p.1 < q.1) (index_csv records t N) := by
  refine ⟨?_, ?_, Nat.mod_lt i hN, ?_, indexLoop_pairwise_lt records 0 t N⟩
  · intro r
    rw [index_csv, mem_indexLoop]
    simp only [Nat.zero_le, Nat.sub_zero, true_and]
    constructor
    · rintro ⟨hget, hmod⟩; exact ⟨hget, hmod.symm⟩
    · rintro ⟨hget, hmod⟩; exact ⟨hget, hmod.symm⟩
  · intro r hmem
    rw [index_csv, mem_indexLoop] at hmem
    obtain ⟨-, hget, -⟩ := hmem
    rw [Nat.sub_zero] at hget
    have hlt : i < records.length := List.get?_eq_some.mp hget |>.1
    rw [documentIdTryFrom, if_pos (by omega)]
  · intro t2 hne r hmem
    rw [index_csv, mem_indexLoop] at hmem
    exact hne hmem.2.2.symm

/-- Witness for C4 at a concrete instance: with 3 records and 2 workers,
worker 1 indexes record 1 under document id 1. -/
theorem index_csv_round_robin_witness :
    (1, 20) ∈ index_csv [10, 20, 30] 1 2 :=
  ((index_csv_round_robin [10, 20, 30] 2 1 1 (by decide) (by decide)).1 20).mpr (by decide)

/-! Helper lemmas for the position and proximity computations. -/

lemma mem_enumTake {α : Type} : ∀ (xs : List α) (L i j : Nat) (x : α),
    ((j, x) ∈ enumTake L i xs ↔ (i ≤ j ∧ j < L ∧ xs.get? (j - i) = some x))
  | [], L, i, j, x => by simp [enumTake]
  | a :: xs, L, i, j, x => by
    have ih := mem_enumTake xs L (i + 1) j x
    unfold enumTake
    by_cases h : i < L
    · rw [if_pos h]
      simp only [List.mem_cons, Prod.mk.injEq, ih]
      constructor
      · rintro (⟨rfl, rfl⟩ | ⟨hi, hj, hget⟩)
        · exact ⟨le_refl _, h, by simp⟩
        · refine ⟨by omega, hj, ?_⟩
          have hd : j - i = (j - (i + 1)) + 1 := by omega
          rw [hd]
          simpa using hget
      · rintro ⟨hi, hj, hget⟩
        rcases Nat.eq_or_lt_of_le hi with rfl | hlt
        · left
          simp only [Nat.sub_self, List.get?_cons_zero, Option.some.injEq] at hget
          exact ⟨rfl, hget.symm⟩
        · right
          refine ⟨by omega, hj, ?_⟩
          have hd : j - i = (j - (i + 1)) + 1 := by omega
          rw [hd] at hget
          simpa using hget
    · rw [if_neg h]
      simp only [List.not_mem_nil, false_iff]
      rintro ⟨hi, hj, -⟩
      omega

lemma position_lt (attr pos : Nat) (ha : attr < MAX_ATTRIBUTES) (hp : pos < MAX_POSITION) :
    attr * MAX_POSITION + pos < MAX_ATTRIBUTES * MAX_POSITION := by
  have h2 : (attr + 1) * MAX_POSITION ≤ MAX_ATTRIBUTES * MAX_POSITION :=
    Nat.mul_le_mul_right _ ha
  have h3 : attr * MAX_POSITION + pos < (attr + 1) * MAX_POSITION := by
    rw [Nat.succ_mul]
    omega
  omega

lemma positionOfToken_eq (attr pos : Nat) (ha : attr < MAX_ATTRIBUTES)
    (hp : pos < MAX_POSITION) :
    positionOfToken attr pos = attr * MAX_POSITION + pos := by
  have h1 := position_lt attr pos ha hp
  have h2 : MAX_ATTRIBUTES * MAX_POSITION ≤ 2 ^ 32 := by decide
  exact Nat.mod_eq_of_lt (by omega)

/-- C6: every position the attribute loop of `Store::index_csv` stores for the
token at index `pos` of attribute `attr` equals `attr * MAX_POSITION + pos`
with `attr < MAX_ATTRIBUTES` and `pos < MAX_POSITION` (out-of-range attributes
and token indexes are truncated), every in-range token is stored at exactly
that position, and every stored position is below
`MAX_ATTRIBUTES * MAX_POSITION`, hence fits a `u32` (the cast never
truncates); moreover `MAX_ATTRIBUTES` equals `⌊2^32 / MAX_POSITION⌋`. -/
theorem position_encoding {W : Type} (document : List (List W)) :
    (∀ wp ∈ recordPositions document, ∃ attr pos,
      attr < MAX_ATTRIBUTES ∧ pos < MAX_POSITION ∧
      wp.2 = positionOfToken attr pos ∧
      wp.2 = attr * MAX_POSITION + pos ∧
      wp.2 < MAX_ATTRIBUTES * MAX_POSITION) ∧
    (∀ attr pos tokens w, document.get? attr = some tokens → attr < MAX_ATTRIBUTES →
      tokens.get? pos = some w → pos < MAX_POSITION →
      (w, attr * MAX_POSITION + pos) ∈ recordPositions document) ∧
    MAX_ATTRIBUTES = 2 ^ 32 / MAX_POSITION ∧
    MAX_ATTRIBUTES * MAX_POSITION ≤ 2 ^ 32 := by
  refine ⟨?_, ?_, by decide, by decide⟩
  · intro wp hwp
    unfold recordPositions at hwp
    obtain ⟨l, hl, hmem⟩ := List.mem_flatten.mp hwp
    obtain ⟨⟨attr, tokens⟩, hac, rfl⟩ := List.mem_map.mp hl
    obtain ⟨⟨pos, w⟩, hpt, rfl⟩ := List.mem_map.mp hmem
    obtain ⟨-, hA, -⟩ := (mem_enumTake document MAX_ATTRIBUTES 0 attr tokens).mp hac
    obtain ⟨-, hP, -⟩ := (mem_enumTake tokens MAX_POSITION 0 pos w).mp hpt
    refine ⟨attr, pos, hA, hP, rfl, positionOfToken_eq attr pos hA hP, ?_⟩
    rw [positionOfToken_eq attr pos hA hP]
    exact position_lt attr pos hA hP
  · intro attr pos tokens w hgetA hA hgetP hP
    unfold recordPositions
    apply List.mem_flatten.mpr
    refine ⟨(enumTake MAX_POSITION 0 tokens).map fun pt => (pt.2, positionOfToken attr pt.1),
      ?_, ?_⟩
    · exact List.mem_map.mpr ⟨(attr, tokens),
        (mem_enumTake document MAX_ATTRIBUTES 0 attr tokens).mpr
          ⟨Nat.zero_le _, hA, by simpa using hgetA⟩, rfl⟩
    · apply List.mem_map.mpr
      refine ⟨(pos, w), (mem_enumTake tokens MAX_POSITION 0 pos w).mpr
        ⟨Nat.zero_le _, hP, by simpa using hgetP⟩, ?_⟩
      simp [positionOfToken_eq attr pos hA hP]

/-- Witness for C6 at a concrete instance: a single one-token attribute is
stored at position 0. -/
theorem position_encoding_witness :
    ((99 : Nat), 0) ∈ recordPositions [[(99 : Nat)]] :=
  (position_encoding [[(99 : Nat)]]).2.1 0 0 [99] 99 rfl (by decide) rfl (by decide)

lemma pairDistances_aux (prox : Nat → Nat → Nat) :
    ∀ (l : List (Nat × Nat)) (acc : Bitmap),
      (∀ x ∈ acc, 0 < x ∧ x < 8) →
      ∀ x ∈ l.foldl (fun distances pq =>
          if 0 < prox pq.1 pq.2 ∧ prox pq.1 pq.2 < 8 then insert (prox pq.1 pq.2) distances
          else distances) acc, 0 < x ∧ x < 8
  | [], _, hacc => hacc
  | pq :: l, acc, hacc => by
    simp only [List.foldl_cons]
    apply pairDistances_aux prox l
    intro x hx
    by_cases hc : 0 < prox pq.1 pq.2 ∧ prox pq.1 pq.2 < 8
    · rw [if_pos hc] at hx
      rcases Finset.mem_insert.mp hx with rfl | hx
      · exact hc
      · exact hacc x hx
    · rw [if_neg hc] at hx
      exact hacc x hx

lemma mem_pairDistances (prox : Nat → Nat → Nat) (ps1 ps2 : Bitmap) :
    ∀ x ∈ pairDistances prox ps1 ps2, 0 < x ∧ x < 8 :=
  pairDistances_aux prox _ ∅ (by simp)

lemma insertPair_invariant {κ : Type} [DecidableEq κ] (Q : Bitmap → Prop)
    (hQ : ∀ d1 d2, Q d1 → Q d2 → Q (d1 ∪ d2)) (k : κ) (d : Bitmap) (hd : Q d) :
    ∀ (acc : List (κ × Bitmap)), (∀ e ∈ acc, Q e.2) → ∀ e ∈ insertPair k d acc, Q e.2
  | [], _ => by
    intro e he
    simp only [insertPair, List.mem_singleton] at he
    rw [he]
    exact hd
  | (k2, d2) :: rest, hacc => by
    intro e he
    unfold insertPair at he
    by_cases hk : k = k2
    · rw [if_pos hk] at he
      rcases List.mem_cons.mp he with rfl | he
      · exact hQ d2 d (hacc (k2, d2) (List.mem_cons_self _ _)) hd
      · exact hacc e (List.mem_cons_of_mem _ he)
    · rw [if_neg hk] at he
      rcases List.mem_cons.mp he with rfl | he
      · exact hacc (k2, d2) (List.mem_cons_self _ _)
      · exact insertPair_invariant Q hQ k d hd rest
          (fun e2 he2 => hacc e2 (List.mem_cons_of_mem _ he2)) e he

lemma compute_aux (prox : Nat → Nat → Nat) :
    ∀ (l : List ((List Nat × Bitmap) × (List Nat × Bitmap)))
      (acc : List ((List Nat × List Nat) × Bitmap)),
      (∀ e ∈ acc, e.2.Nonempty ∧ ∀ x ∈ e.2, 1 ≤ x ∧ x ≤ 7) →
      ∀ e ∈ l.foldl (fun acc2 ww =>
          if pairDistances prox ww.1.2 ww.2.2 = ∅ then acc2
          else insertPair (ww.1.1, ww.2.1) (pairDistances prox ww.1.2 ww.2.2) acc2) acc,
        e.2.Nonempty ∧ ∀ x ∈ e.2, 1 ≤ x ∧ x ≤ 7
  | [], _, hacc => hacc
  | ww :: l, acc, hacc => by
    simp only [List.foldl_cons]
    apply compute_aux prox l
    by_cases hc : pairDistances prox ww.1.2 ww.2.2 = ∅
    · rw [if_pos hc]
      exact hacc
    · rw [if_neg hc]
      have hunion : ∀ d1 d2 : Bitmap,
          (d1.Nonempty ∧ ∀ x ∈ d1, 1 ≤ x ∧ x ≤ 7) →
          (d2.Nonempty ∧ ∀ x ∈ d2, 1 ≤ x ∧ x ≤ 7) →
          ((d1 ∪ d2).Nonempty ∧ ∀ x ∈ d1 ∪ d2, 1 ≤ x ∧ x ≤ 7) := by
        rintro d1 d2 ⟨hne1, hr1⟩ ⟨-, hr2⟩
        refine ⟨hne1.mono Finset.subset_union_left, fun x hx => ?_⟩
        rcases Finset.mem_union.mp hx with hx | hx
        · exact hr1 x hx
        · exact hr2 x hx
      have hd : (pairDistances prox ww.1.2 ww.2.2).Nonempty ∧
          ∀ x ∈ pairDistances prox ww.1.2 ww.2.2, 1 ≤ x ∧ x ≤ 7 := by
        refine ⟨Finset.nonempty_iff_ne_empty.mpr hc, fun x hx => ?_⟩
        have := mem_pairDistances prox ww.1.2 ww.2.2 x hx
        omega
      exact insertPair_invariant _ hunion _ _ hd acc hacc

lemma mem_compute_range (prox : Nat → Nat → Nat)
    (word_positions : List (List Nat × Bitmap)) :
    ∀ e ∈ compute_words_pair_proximities prox word_positions,
      e.2.Nonempty ∧ ∀ x ∈ e.2, 1 ≤ x ∧ x ≤ 7 :=
  compute_aux prox _ [] (by simp)

lemma collectEntries_isSome {α β : Type} (f : α → Option (List β)) :
    ∀ (l : List α), (∀ a ∈ l, ∃ bs, f a = some bs) →
      ∃ out, collectEntries f l = some out
  | [], _ => ⟨[], rfl⟩
  | a :: l, h => by
    obtain ⟨bs, hbs⟩ := h a (List.mem_cons_self _ _)
    obtain ⟨rest, hrest⟩ := collectEntries_isSome f l
      (fun a2 ha2 => h a2 (List.mem_cons_of_mem _ ha2))
    refine ⟨bs ++ rest, ?_⟩
    unfold collectEntries
    rw [hbs, hrest]

lemma mem_collectEntries {α β : Type} (f : α → Option (List β)) :
    ∀ (l : List α) (out : List β), collectEntries f l = some out →
      ∀ b ∈ out, ∃ a ∈ l, ∃ bs, f a = some bs ∧ b ∈ bs
  | [], out, h => by
    intro b hb
    have h2 : some ([] : List β) = some out := h
    injection h2 with h2
    subst h2
    exact absurd hb (List.not_mem_nil b)
  | a :: l, out, h => by
    intro b hb
    unfold collectEntries at h
    cases hfa : f a with
    | none =>
      rw [hfa] at h
      exact Option.noConfusion h
    | some bs =>
      rw [hfa] at h
      cases hcl : collectEntries f l with
      | none =>
        rw [hcl] at h
        exact Option.noConfusion h
      | some rest =>
        rw [hcl] at h
        have h2 : some (bs ++ rest) = some out := h
        injection h2 with h2
        subst h2
        rcases List.mem_append.mp hb with hb | hb
        · exact ⟨a, List.mem_cons_self _ _, bs, hfa, hb⟩
        · obtain ⟨a2, ha2, bs2, hbs2, hb2⟩ := mem_collectEntries f l rest hcl b hb
          exact ⟨a2, List.mem_cons_of_mem _ ha2, bs2, hbs2, hb2⟩

lemma proximityEntry_eq (w1 w2 : List Nat) (document_id p : Nat) (hp : p < 256) :
    proximityEntry w1 w2 document_id p =
      (if lmdb_key_valid_size (WORDS_PROXIMITIES_BYTE :: (w1 ++ 0 :: w2 ++ [p])) then
        some [(WORDS_PROXIMITIES_BYTE :: (w1 ++ 0 :: w2 ++ [p]),
          serializeBitmap {document_id})]
      else some []) := by
  unfold proximityEntry u8TryFrom
  rw [if_pos hp]

lemma getLast?_prox_key (b z p : Nat) (w1 w2 : List Nat) :
    (b :: (w1 ++ z :: w2 ++ [p])).getLast? = some p := by
  have hshape : b :: (w1 ++ z :: w2 ++ [p]) = (b :: (w1 ++ z :: w2)) ++ [p] := by
    simp [List.cons_append, List.append_assoc]
  rw [hshape, List.getLast?_concat]

/-- C5: every distance recorded by `compute_words_pair_proximities` lies in
`1..=7` (distance 0 and distances at least 8 are discarded) and pairs with an
empty distances set are omitted; consequently `write_words_proximities`
applied to its output succeeds and every emitted key starts with the 0x05
prefix and ends with a proximity byte in `[1, 7]`. -/
theorem proximity_distances_in_range (prox : Nat → Nat → Nat)
    (word_positions : List (List Nat × Bitmap)) (document_id : Nat) :
    (∀ e ∈ compute_words_pair_proximities prox word_positions,
      e.2.Nonempty ∧ ∀ d ∈ e.2, 1 ≤ d ∧ d ≤ 7) ∧
    (∃ out, write_words_proximities document_id
        (compute_words_pair_proximities prox word_positions) = some out ∧
      ∀ kv ∈ out, kv.1.head? = some WORDS_PROXIMITIES_BYTE ∧
        ∃ p, kv.1.getLast? = some p ∧ 1 ≤ p ∧ p ≤ 7) := by
  have hrange := mem_compute_range prox word_positions
  refine ⟨hrange, ?_⟩
  have hinner : ∀ wwd ∈ compute_words_pair_proximities prox word_positions,
      ∃ bs, collectEntries (proximityEntry wwd.1.1 wwd.1.2 document_id)
        (positionsList wwd.2) = some bs := by
    intro wwd hwwd
    apply collectEntries_isSome
    intro p hp
    have hpmem : p ∈ wwd.2 := (Finset.mem_sort _).mp hp
    have hpr := (hrange wwd hwwd).2 p hpmem
    rw [proximityEntry_eq _ _ _ _ (by omega)]
    by_cases hv : lmdb_key_valid_size
        (WORDS_PROXIMITIES_BYTE :: (wwd.1.1 ++ 0 :: wwd.1.2 ++ [p])) = true
    · rw [if_pos hv]
      exact ⟨_, rfl⟩
    · rw [if_neg hv]
      exact ⟨_, rfl⟩
  obtain ⟨out, hout⟩ := collectEntries_isSome _ _ hinner
  refine ⟨out, hout, ?_⟩
  intro kv hkv
  obtain ⟨wwd, hwwd, bs, hbs, hkvbs⟩ := mem_collectEntries _ _ out hout kv hkv
  obtain ⟨p, hppos, bs2, hbs2, hkvbs2⟩ := mem_collectEntries _ _ bs hbs kv hkvbs
  have hpmem : p ∈ wwd.2 := (Finset.mem_sort _).mp hppos
  have hpr := (hrange wwd hwwd).2 p hpmem
  rw [proximityEntry_eq _ _ _ _ (by omega)] at hbs2
  by_cases hv : lmdb_key_valid_size
      (WORDS_PROXIMITIES_BYTE :: (wwd.1.1 ++ 0 :: wwd.1.2 ++ [p])) = true
  · rw [if_pos hv] at hbs2
    have h2 : some [(WORDS_PROXIMITIES_BYTE :: (wwd.1.1 ++ 0 :: wwd.1.2 ++ [p]),
        serializeBitmap {document_id})] = some bs2 := hbs2
    injection h2 with h2
    subst h2
    rcases List.mem_singleton.mp hkvbs2 with rfl
    refine ⟨rfl, p, ?_, hpr.1, hpr.2⟩
    exact getLast?_prox_key _ _ _ _ _
  · rw [if_neg hv] at hbs2
    have h2 : some ([] : List (List Nat × List Nat)) = some bs2 := hbs2
    injection h2 with h2
    subst h2
    exact absurd hkvbs2 (List.not_mem_nil kv)

/-- Witness for C5 at a concrete instance: the writer succeeds on the
(empty) pair map computed from an empty record. -/
theorem proximity_distances_in_range_witness :
    ∃ out, write_words_proximities 0
        (compute_words_pair_proximities (fun _ _ => 0) []) = some out ∧
      ∀ kv ∈ out, kv.1.head? = some WORDS_PROXIMITIES_BYTE ∧
        ∃ p, kv.1.getLast? = some p ∧ 1 ≤ p ∧ p ≤ 7 :=
  (proximity_distances_in_range (fun _ _ => 0) [] 0).2

lemma lmdb_key_valid_size_iff (key : List Nat) :
    lmdb_key_valid_size key = true ↔ (key ≠ [] ∧ key.length ≤ 511) := by
  unfold lmdb_key_valid_size LMDB_MAX_KEY_LENGTH
  cases key with
  | nil => simp
  | cons a t => simp

/-- C7: every key inserted by `write_word_docids`, `write_docid_word_positions`
or `write_words_proximities` satisfies `lmdb_key_valid_size` (non-empty and at
most 511 bytes); a key longer than 511 bytes is silently skipped while the
write operation still succeeds (the remaining entries are emitted, and the
proximity writer still returns a result); a word whose prefixed key is invalid
appears neither among the emitted word-docids keys nor in the words FST built
from them. -/
theorem key_size_clamp (iter words_positions : List (List Nat × Bitmap))
    (id document_id : Nat) (pairs : List ((List Nat × List Nat) × Bitmap)) :
    (∀ kv ∈ write_word_docids iter,
      lmdb_key_valid_size kv.1 = true ∧ kv.1 ≠ [] ∧ kv.1.length ≤ 511) ∧
    (∀ kv ∈ write_docid_word_positions id words_positions,
      lmdb_key_valid_size kv.1 = true ∧ kv.1 ≠ [] ∧ kv.1.length ≤ 511) ∧
    (∀ out, write_words_proximities document_id pairs = some out →
      ∀ kv ∈ out, lmdb_key_valid_size kv.1 = true ∧ kv.1 ≠ [] ∧ kv.1.length ≤ 511) ∧
    ((∀ e ∈ pairs, ∀ p ∈ e.2, p < 256) →
      ∃ out, write_words_proximities document_id pairs = some out) ∧
    (∀ w ids l1 l2, lmdb_key_valid_size (WORD_DOCIDS_BYTE :: w) = false →
      write_word_docids (l1 ++ (w, ids) :: l2) = write_word_docids (l1 ++ l2)) ∧
    (∀ w, lmdb_key_valid_size (WORD_DOCIDS_BYTE :: w) = false →
      (∀ v, (WORD_DOCIDS_BYTE :: w, v) ∉ write_word_docids iter) ∧
      w ∉ wordsFst (write_word_docids iter)) := by
  have hdocids : ∀ kv ∈ write_word_docids iter,
      lmdb_key_valid_size kv.1 = true ∧ kv.1 ≠ [] ∧ kv.1.length ≤ 511 := by
    intro kv hkv
    obtain ⟨a, ha, hfa⟩ := List.mem_filterMap.mp hkv
    by_cases hval : lmdb_key_valid_size (WORD_DOCIDS_BYTE :: a.1) = true
    · rw [if_pos hval] at hfa
      injection hfa with hfa
      subst hfa
      obtain ⟨h1, h2⟩ := (lmdb_key_valid_size_iff _).mp hval
      exact ⟨hval, h1, h2⟩
    · rw [if_neg hval] at hfa
      exact Option.noConfusion hfa
  refine ⟨hdocids, ?_, ?_, ?_, ?_, ?_⟩
  · intro kv hkv
    obtain ⟨a, ha, hfa⟩ := List.mem_filterMap.mp hkv
    by_cases hval : lmdb_key_valid_size
        (WORD_DOCID_POSITIONS_BYTE :: (beBytes32 id ++ a.1)) = true
    · rw [if_pos hval] at hfa
      injection hfa with hfa
      subst hfa
      obtain ⟨h1, h2⟩ := (lmdb_key_valid_size_iff _).mp hval
      exact ⟨hval, h1, h2⟩
    · rw [if_neg hval] at hfa
      exact Option.noConfusion hfa
  · intro out hout kv hkv
    obtain ⟨wwd, hwwd, bs, hbs, hkvbs⟩ := mem_collectEntries _ _ out hout kv hkv
    obtain ⟨p, hppos, bs2, hbs2, hkvbs2⟩ := mem_collectEntries _ _ bs hbs kv hkvbs
    unfold proximityEntry at hbs2
    cases hu : u8TryFrom p with
    | none =>
      rw [hu] at hbs2
      exact Option.noConfusion hbs2
    | some byte =>
      rw [hu] at hbs2
      have hbs2b : (if lmdb_key_valid_size
          (WORDS_PROXIMITIES_BYTE :: (wwd.1.1 ++ 0 :: wwd.1.2 ++ [byte])) = true then
            some [(WORDS_PROXIMITIES_BYTE :: (wwd.1.1 ++ 0 :: wwd.1.2 ++ [byte]),
              serializeBitmap {document_id})]
          else some ([] : List (List Nat × List Nat))) = some bs2 := hbs2
      by_cases hval : lmdb_key_valid_size
          (WORDS_PROXIMITIES_BYTE :: (wwd.1.1 ++ 0 :: wwd.1.2 ++ [byte])) = true
      · rw [if_pos hval] at hbs2b
        injection hbs2b with h2
        subst h2
        rcases List.mem_singleton.mp hkvbs2 with rfl
        obtain ⟨h1, h2⟩ := (lmdb_key_valid_size_iff _).mp hval
        exact ⟨hval, h1, h2⟩
      · rw [if_neg hval] at hbs2b
        injection hbs2b with h2
        subst h2
        exact absurd hkvbs2 (List.not_mem_nil kv)
  · intro hsmall
    apply collectEntries_isSome
    intro wwd hwwd
    apply collectEntries_isSome
    intro p hp
    have hpmem : p ∈ wwd.2 := (Finset.mem_sort _).mp hp
    have hlt : p < 256 := hsmall wwd hwwd p hpmem
    rw [proximityEntry_eq _ _ _ _ hlt]
    by_cases hv : lmdb_key_valid_size
        (WORDS_PROXIMITIES_BYTE :: (wwd.1.1 ++ 0 :: wwd.1.2 ++ [p])) = true
    · rw [if_pos hv]
      exact ⟨_, rfl⟩
    · rw [if_neg hv]
      exact ⟨_, rfl⟩
  · intro w ids l1 l2 hfalse
    unfold write_word_docids
    rw [List.filterMap_append, List.filterMap_append, List.filterMap_cons]
    rw [if_neg (by rw [hfalse]; exact Bool.false_ne_true)]
  · intro w hfalse
    constructor
    · intro v hmem
      obtain ⟨a, ha, hfa⟩ := List.mem_filterMap.mp hmem
      by_cases hval : lmdb_key_valid_size (WORD_DOCIDS_BYTE :: a.1) = true
      · rw [if_pos hval] at hfa
        injection hfa with hfa
        have hkey : WORD_DOCIDS_BYTE :: a.1 = WORD_DOCIDS_BYTE :: w := congrArg Prod.fst hfa
        rw [hkey] at hval
        rw [hfalse] at hval
        exact Bool.false_ne_true hval
      · rw [if_neg hval] at hfa
        exact Option.noConfusion hfa
    · intro hmem
      obtain ⟨kv, hkv, hmatch⟩ := List.mem_filterMap.mp hmem
      have hvalid := (hdocids kv hkv).1
      rcases kv with ⟨key, v⟩
      cases key with
      | nil => exact Option.noConfusion hmatch
      | cons b word =>
        simp only at hmatch
        by_cases hb : b = WORD_DOCIDS_BYTE
        · rw [if_pos hb] at hmatch
          injection hmatch with hmatch
          subst hmatch
          subst hb
          rw [hfalse] at hvalid
          exact Bool.false_ne_true hvalid
        · rw [if_neg hb] at hmatch
          exact Option.noConfusion hmatch

/-- Witness for C7 at a concrete instance: the emitted key for word "a"
(byte 97) is LMDB-valid. -/
theorem key_size_clamp_witness :
    lmdb_key_valid_size [2, 97] = true :=
  ((key_size_clamp [([97], {3})] [] 0 0 []).1 ([2, 97], serializeBitmap {3})
    (List.mem_filterMap.mpr ⟨([97], {3}), List.mem_singleton_self _,
      by rw [if_pos (by decide)]; rfl⟩)).1

/-- C8: a word `w` is in the words FST built by `Store::finish` if and only if
`WORD_DOCIDS_BYTE ‖ w` is a key of the worker's sorted postings stream. -/
theorem wordsFst_iff_word_docids_key (stream : List (List Nat × List Nat)) (w : List Nat) :
    w ∈ wordsFst stream ↔ ∃ v, (WORD_DOCIDS_BYTE :: w, v) ∈ stream := by
  unfold wordsFst
  rw [List.mem_filterMap]
  constructor
  · rintro ⟨⟨key, v⟩, hkv, hmatch⟩
    cases key with
    | nil => exact Option.noConfusion hmatch
    | cons b word =>
      simp only at hmatch
      by_cases hb : b = WORD_DOCIDS_BYTE
      · rw [if_pos hb] at hmatch
        injection hmatch with hmatch
        subst hmatch
        subst hb
        exact ⟨v, hkv⟩
      · rw [if_neg hb] at hmatch
        exact Option.noConfusion hmatch
  · rintro ⟨v, hv⟩
    refine ⟨(WORD_DOCIDS_BYTE :: w, v), hv, ?_⟩
    simp

/-- Witness for C8 at a concrete instance: the stream key `[2, 97]` puts the
word `[97]` into the FST. -/
theorem wordsFst_iff_word_docids_key_witness :
    [97] ∈ wordsFst [([2, 97], [1])] :=
  (wordsFst_iff_word_docids_key [([2, 97], [1])] [97]).mpr ⟨[1], by decide⟩

/-- C9 (evidence of the code bug): when a chunk compression level is provided,
`Store::new` leaves the documents sorter's builder without any compression
level and instead applies the level to the postings sorter's builder (a second
time); the claimed configuration — the level applied to the documents
builder — does not hold in the code. -/
theorem store_new_level_misapplied (max_nb_chunks max_memory : Option Nat)
    (ct : CompressionType) (level : Nat) :
    (storeNewBuilders max_nb_chunks max_memory ct (some level)).2.chunkCompressionLevel
        = none ∧
    (storeNewBuilders max_nb_chunks max_memory ct (some level)).1.chunkCompressionLevel
        = some level := by
  cases max_nb_chunks <;> cases max_memory <;> exact ⟨rfl, rfl⟩

lemma lexLt_of_head_lt {k : List Nat} {b : Nat} (hk : k.head? = some b) (hb : b < 6) :
    lexLt k WORDS_FST_KEY := by
  cases k with
  | nil => exact Option.noConfusion hk
  | cons c tl =>
    simp only [List.head?_cons, Option.some.injEq] at hk
    subst hk
    show List.Lex (· < ·) (c :: tl) (6 :: [119, 111, 114, 100, 115, 45, 102, 115, 116])
    exact List.Lex.rel hb

lemma write_words_proximities_key_head (document_id : Nat)
    (pairs : List ((List Nat × List Nat) × Bitmap)) (out : List (List Nat × List Nat))
    (hout : write_words_proximities document_id pairs = some out) :
    ∀ kv ∈ out, kv.1.head? = some WORDS_PROXIMITIES_BYTE := by
  intro kv hkv
  obtain ⟨wwd, hwwd, bs, hbs, hkvbs⟩ := mem_collectEntries _ _ out hout kv hkv
  obtain ⟨p, hppos, bs2, hbs2, hkvbs2⟩ := mem_collectEntries _ _ bs hbs kv hkvbs
  unfold proximityEntry at hbs2
  cases hu : u8TryFrom p with
  | none =>
    rw [hu] at hbs2
    exact Option.noConfusion hbs2
  | some byte =>
    rw [hu] at hbs2
    have hbs2b : (if lmdb_key_valid_size
        (WORDS_PROXIMITIES_BYTE :: (wwd.1.1 ++ 0 :: wwd.1.2 ++ [byte])) = true then
          some [(WORDS_PROXIMITIES_BYTE :: (wwd.1.1 ++ 0 :: wwd.1.2 ++ [byte]),
            serializeBitmap {document_id})]
        else some ([] : List (List Nat × List Nat))) = some bs2 := hbs2
    by_cases hval : lmdb_key_valid_size
        (WORDS_PROXIMITIES_BYTE :: (wwd.1.1 ++ 0 :: wwd.1.2 ++ [byte])) = true
    · rw [if_pos hval] at hbs2b
      injection hbs2b with h2
      subst h2
      rcases List.mem_singleton.mp hkvbs2 with rfl
      rfl
    · rw [if_neg hval] at hbs2b
      injection hbs2b with h2
      subst h2
      exact absurd hkvbs2 (List.not_mem_nil kv)

/-- C10: every key the five write functions insert into the postings sorter
starts with a prefix byte in the set of bytes 0, 1, 2, 4, 5, each strictly
below 6, so it sorts lexicographically strictly before `WORDS_FST_KEY`; and
appending the FST sentinel entry after a stream of such keys sorted in
(reflexive) lexicographic order keeps the stream sorted. -/
theorem words_fst_key_sentinel (iter words_positions : List (List Nat × Bitmap))
    (id document_id : Nat) (pairs : List ((List Nat × List Nat) × Bitmap))
    (headers : List Nat) (ids : Bitmap) :
    (∀ kv ∈ write_headers headers,
      kv.1.head? = some HEADERS_BYTE ∧ lexLt kv.1 WORDS_FST_KEY) ∧
    (∀ kv ∈ write_documents_ids ids,
      kv.1.head? = some DOCUMENTS_IDS_BYTE ∧ lexLt kv.1 WORDS_FST_KEY) ∧
    (∀ kv ∈ write_word_docids iter,
      kv.1.head? = some WORD_DOCIDS_BYTE ∧ lexLt kv.1 WORDS_FST_KEY) ∧
    (∀ kv ∈ write_docid_word_positions id words_positions,
      kv.1.head? = some WORD_DOCID_POSITIONS_BYTE ∧ lexLt kv.1 WORDS_FST_KEY) ∧
    (∀ out, write_words_proximities document_id pairs = some out →
      ∀ kv ∈ out, kv.1.head? = some WORDS_PROXIMITIES_BYTE ∧ lexLt kv.1 WORDS_FST_KEY) ∧
    (∀ stream : List (List Nat), List.Chain' lexLe stream →
      (∀ k ∈ stream, lexLt k WORDS_FST_KEY) →
      List.Chain' lexLe (stream ++ [WORDS_FST_KEY])) := by
  refine ⟨?_, ?_, ?_, ?_, ?_, ?_⟩
  · intro kv hkv
    rcases List.mem_singleton.mp hkv with rfl
    exact ⟨rfl, lexLt_of_head_lt rfl (by decide)⟩
  · intro kv hkv
    rcases List.mem_singleton.mp hkv with rfl
    exact ⟨rfl, lexLt_of_head_lt rfl (by decide)⟩
  · intro kv hkv
    obtain ⟨a, ha, hfa⟩ := List.mem_filterMap.mp hkv
    by_cases hval : lmdb_key_valid_size (WORD_DOCIDS_BYTE :: a.1) = true
    · rw [if_pos hval] at hfa
      injection hfa with hfa
      subst hfa
      exact ⟨rfl, lexLt_of_head_lt rfl (by decide)⟩
    · rw [if_neg hval] at hfa
      exact Option.noConfusion hfa
  · intro kv hkv
    obtain ⟨a, ha, hfa⟩ := List.mem_filterMap.mp hkv
    by_cases hval : lmdb_key_valid_size
        (WORD_DOCID_POSITIONS_BYTE :: (beBytes32 id ++ a.1)) = true
    · rw [if_pos hval] at hfa
      injection hfa with hfa
      subst hfa
      exact ⟨rfl, lexLt_of_head_lt rfl (by decide)⟩
    · rw [if_neg hval] at hfa
      exact Option.noConfusion hfa
  · intro out hout kv hkv
    have hhead := write_words_proximities_key_head document_id pairs out hout kv hkv
    exact ⟨hhead, lexLt_of_head_lt hhead (by decide)⟩
  · intro stream hchain hall
    rw [List.chain'_append]
    refine ⟨hchain, List.chain'_singleton _, ?_⟩
    intro x hx y hy
    have hyy : WORDS_FST_KEY = y := by simpa using hy
    subst hyy
    have hxmem : x ∈ stream := List.mem_of_getLast?_eq_some (Option.mem_def.mp hx)
    exact Or.inl (hall x hxmem)

/-- Witness for C10 at a concrete instance: the headers key followed by the
FST sentinel key is a sorted stream. -/
theorem words_fst_key_sentinel_witness :
    List.Chain' lexLe ([HEADERS_KEY] ++ [WORDS_FST_KEY]) := by
  have hthm := words_fst_key_sentinel [] [] 0 0 [] [] ∅
  apply hthm.2.2.2.2.2 [HEADERS_KEY] (List.chain'_singleton _)
  intro k hk
  have hk2 : k = HEADERS_KEY := by simpa using hk
  subst hk2
  exact (hthm.1 (HEADERS_KEY, []) (List.mem_singleton_self _)).2

end Indexer
